import Mathlib

/-!
Verification of the message-reconciliation view model of the deep-agents chat UI
(`ui/src/app/components/ChatInterface/ChatInterface.tsx`, `processedMessages`).

The reconciler consumes a flat stream of LangGraph messages (`ai`, `human`,
`tool`, or other) and produces render turns: one per `ai`/`human` message, in
first-seen order, each carrying the normalized tool calls of its message
together with a completion status folded in from later `tool` messages.

JavaScript-specific behaviour that matters here and is modelled explicitly:
  * `||` fallback chains treat the empty string as falsy, while any object
    (including `{}` and `[]`) is truthy;
  * a missing tool-call id is replaced by `"tool-" + Math.random()`; the
    random generator is modelled as an oracle `rnd : Nat → String` consumed
    left to right, so two invocations of the reconciler correspond to two
    (possibly different) oracles;
  * the working `Map` keyed by message id keeps insertion order and `set` on
    an existing key overwrites in place.
-/

namespace DeepAgents

/-- JS string fallback `a || d`: a string field is falsy when it is absent
(`undefined`/`null`) or the empty string. -/
def jsOrStr : Option String → String → String
  | some s, d => if s = "" then d else s
  | none, d => d

/-- An opaque tool-call argument payload: either an object (always truthy in
JS, e.g. the `args`/`input` fields or the default `{}`) or a raw string (the
OpenAI-style `function.arguments`; falsy exactly when empty). -/
inductive Arg where
  | obj (fields : List (String × String))
  | str (s : String)
deriving DecidableEq

/-- JS truthiness of an argument payload. -/
def Arg.truthy : Arg → Bool
  | .obj _ => true
  | .str s => s != ""

/-- JS fallback `a || d` on argument payloads. -/
def jsOrArg : Option Arg → Arg → Arg
  | some a, d => if a.truthy then a else d
  | none, d => d

/-- The nested function-call shape: `toolCall.function` with optional
`name` and `arguments` fields. -/
structure RawFunction where
  name : Option String
  arguments : Option Arg
deriving DecidableEq

/-- A raw tool-call record as it appears in any of the three source shapes;
every field is optional, matching the untyped JS objects. -/
structure RawToolCall where
  id : Option String
  function : Option RawFunction
  name : Option String
  type : Option String
  args : Option Arg
  input : Option Arg
deriving DecidableEq

/-- The `additional_kwargs` object of an assistant message; `tool_calls` is
present exactly when it holds an array. -/
structure AdditionalKwargs where
  tool_calls : Option (List RawToolCall)
deriving DecidableEq

/-- Message content: plain text, or an array of content blocks. Blocks are
modelled by their tool-call-relevant fields; a block represents a tool use
exactly when its `type` field is the string `"tool_use"`. -/
inductive Content where
  | text (s : String)
  | blocks (bs : List RawToolCall)
deriving DecidableEq

/-- An input message. `ai` carries the three possible tool-call encodings
(`additional_kwargs.tool_calls`, the flat `tool_calls`, and content blocks);
`tool` carries its `tool_call_id` reference (absent or empty string is
falsy and skipped) and its textual content; `other` stands for any message
whose `type` is none of `"ai"`, `"tool"`, `"human"`. -/
inductive Message where
  | ai (id : String) (additional_kwargs : Option AdditionalKwargs)
      (tool_calls : Option (List RawToolCall)) (content : Content)
  | human (id : String) (content : Content)
  | tool (id : String) (tool_call_id : Option String) (content : String)
  | other
deriving DecidableEq

/-- The `message.id` used as the key of the working map (only read for
`ai` and `human` messages). -/
def Message.msgId : Message → String
  | .ai i _ _ _ => i
  | .human i _ => i
  | .tool i _ _ => i
  | .other => ""

/-- The `message.type` discriminator string. -/
def Message.jsType : Message → String
  | .ai _ _ _ _ => "ai"
  | .human _ _ => "human"
  | .tool _ _ _ => "tool"
  | .other => "other"

/-- Status of a normalized tool call: `pending` until a matching tool result
is folded in, then `completed`. -/
inductive Status where
  | pending
  | completed
deriving DecidableEq

/-- A normalized tool call as rendered (`ToolCall` in `types.ts`). -/
structure ToolCall where
  id : String
  name : String
  args : Arg
  status : Status
  result : Option String
deriving DecidableEq

/-- Tool-call extraction for an assistant message, in the source's strict
priority order: `additional_kwargs.tool_calls` when it is an array; else the
flat `tool_calls` array filtered to drop entries whose `name` is the empty
string; else the content blocks with `type === "tool_use"`; else none. -/
def extractRawToolCalls (akw : Option AdditionalKwargs)
    (tcs : Option (List RawToolCall)) (content : Content) : List RawToolCall :=
  match akw.bind AdditionalKwargs.tool_calls with
  | some l => l
  | none =>
    match tcs with
    | some l => l.filter (fun tc => tc.name != some "")
    | none =>
      match content with
      | .blocks bs => bs.filter (fun b => b.type == some "tool_use")
      | .text _ => []

/-- Normalization of one raw tool call: name via
`toolCall.function?.name || toolCall.name || toolCall.type || "unknown"`,
arguments via `toolCall.function?.arguments || toolCall.args ||
toolCall.input || {}`, id via `toolCall.id || "tool-" + Math.random()`
(the oracle `rnd` supplies the random digits and the counter `k` is advanced
exactly when the oracle is consumed), status `pending`. -/
def normalizeOne (rnd : Nat → String) (k : Nat) (tc : RawToolCall) : ToolCall × Nat :=
  let name := jsOrStr (tc.function.bind RawFunction.name)
    (jsOrStr tc.name (jsOrStr tc.type "unknown"))
  let args := jsOrArg (tc.function.bind RawFunction.arguments)
    (jsOrArg tc.args (jsOrArg tc.input (Arg.obj [])))
  match tc.id with
  | some s =>
    if s = "" then
      ({ id := "tool-" ++ rnd k, name := name, args := args,
         status := Status.pending, result := none }, k + 1)
    else
      ({ id := s, name := name, args := args,
         status := Status.pending, result := none }, k)
  | none =>
    ({ id := "tool-" ++ rnd k, name := name, args := args,
       status := Status.pending, result := none }, k + 1)

/-- Normalization of a raw tool-call list, threading the oracle counter. -/
def normalizeList (rnd : Nat → String) (k : Nat) : List RawToolCall → List ToolCall × Nat
  | [] => ([], k)
  | tc :: rest =>
    let p := normalizeOne rnd k tc
    let q := normalizeList rnd p.2 rest
    (p.1 :: q.1, q.2)

/-- One in-progress render turn: the originating message together with its
normalized tool calls (the values of the working map). -/
structure Entry where
  message : Message
  toolCalls : List ToolCall
deriving DecidableEq

/-- Insertion-ordered `Map.set`: overwrite in place when the key (the stored
message's id) is already present, else append. -/
def mapSet (e : Entry) : List Entry → List Entry
  | [] => [e]
  | e' :: rest =>
    if e'.message.msgId = e.message.msgId then e :: rest else e' :: mapSet e rest

/-- Marking a tool call completed with the extracted result, as done by the
spread update in the tool-message branch. -/
def markCompleted (res : String) (tc : ToolCall) : ToolCall :=
  { tc with status := Status.completed, result := some res }

/-- `findIndex`-and-update inside one turn: only the first tool call whose id
matches is marked completed. -/
def updateToolCalls (tid res : String) : List ToolCall → List ToolCall
  | [] => []
  | tc :: rest =>
    if tc.id = tid then markCompleted res tc :: rest
    else tc :: updateToolCalls tid res rest

/-- Whether a turn contains a tool call with the given id. -/
def hasToolCall (tid : String) (e : Entry) : Bool :=
  e.toolCalls.any (fun tc => tc.id == tid)

/-- Folding a tool result into the working map: scan the turns in insertion
order, update the first turn holding a matching tool call, then stop; when no
turn matches, the map is unchanged (orphan drop). -/
def updateEntries (tid res : String) : List Entry → List Entry
  | [] => []
  | e :: rest =>
    if hasToolCall tid e then
      { e with toolCalls := updateToolCalls tid res e.toolCalls } :: rest
    else e :: updateEntries tid res rest

/-- Modelled from the spec: `extractStringFromMessageContent` lives in
`ui/src/app/utils/utils.ts`, which is not among the sources; per the spec a
tool-result message carries `toolResultPayload`, "the textual/serialized
result of the tool call", which is attached as the extracted textual result.
It is modelled as returning the tool message's textual content. -/
def extractStringFromMessageContent (content : String) : String := content

/-- One step of the single forward pass: `ai` inserts a turn with its
normalized tool calls, `human` inserts a turn with no tool calls, `tool`
folds its result in (skipped entirely when `tool_call_id` is falsy), and any
other message type is ignored. -/
def step (rnd : Nat → String) : List Entry × Nat → Message → List Entry × Nat
  | (entries, k), Message.ai i akw tcs content =>
    let raw := extractRawToolCalls akw tcs content
    let p := normalizeList rnd k raw
    (mapSet { message := Message.ai i akw tcs content, toolCalls := p.1 } entries, p.2)
  | (entries, k), Message.human i content =>
    (mapSet { message := Message.human i content, toolCalls := [] } entries, k)
  | (entries, k), Message.tool _ tid content =>
    match tid with
    | none => (entries, k)
    | some t =>
      if t = "" then (entries, k)
      else (updateEntries t (extractStringFromMessageContent content) entries, k)
  | (entries, k), Message.other => (entries, k)

/-- A render turn as consumed by the presentation layer. -/
structure RenderTurn where
  message : Message
  toolCalls : List ToolCall
  showAvatar : Bool
deriving DecidableEq

/-- The final indexed pass computing `showAvatar`: each turn compares its
message type with the previous turn's (`prevMessage?.type`, which is absent
for the first turn, so the first comparison is against `undefined` and the
hint is true). -/
def withAvatars : Option Message → List Entry → List RenderTurn
  | _, [] => []
  | prev, e :: rest =>
    { message := e.message, toolCalls := e.toolCalls,
      showAvatar := decide (prev.map Message.jsType ≠ some e.message.jsType) }
      :: withAvatars (some e.message) rest

/-- The reconciler `processedMessages`: fold the whole message sequence
through `step` starting from an empty map, then emit the tracked turns in
insertion order with avatar hints. -/
def reconcile (rnd : Nat → String) (msgs : List Message) : List RenderTurn :=
  withAvatars none (msgs.foldl (step rnd) ([], 0)).1

/-- Default tool call used with `List.getD`. -/
def dTC : ToolCall :=
  { id := "", name := "", args := Arg.obj [], status := Status.pending, result := none }

/-- Default entry used with `List.getD`. -/
def dE : Entry := { message := Message.other, toolCalls := [] }

/-- Default render turn used with `List.getD`. -/
def dRT : RenderTurn := { message := Message.other, toolCalls := [], showAvatar := false }

/-- Keys of the working map, in insertion order. -/
def keysOf (l : List Entry) : List String := l.map (fun e => e.message.msgId)

/-- Ids of the `ai`/`human` messages of a sequence, the possible map keys. -/
def aiHumanIds : List Message → List String
  | [] => []
  | Message.ai i _ _ _ :: rest => i :: aiHumanIds rest
  | Message.human i _ :: rest => i :: aiHumanIds rest
  | _ :: rest => aiHumanIds rest

/-- A message whose id (when it is an `ai`/`human` message) is not among the
given key set. -/
def idFreshIn (ids : List String) : Message → Bool
  | Message.ai i _ _ _ => !(decide (i ∈ ids))
  | Message.human i _ => !(decide (i ∈ ids))
  | _ => true

/-- Whether a raw tool call carries a truthy id, so that no synthetic random
id is generated for it. -/
def tcIdTruthy (tc : RawToolCall) : Bool :=
  match tc.id with
  | some s => s != ""
  | none => false

/-- The given id of a raw tool call (empty when absent). -/
def rawIdOf (tc : RawToolCall) : String := tc.id.getD ""

/-- Whether every tool call extracted from a message carries a truthy id
(vacuously true for non-assistant messages). -/
def msgIdsPresent : Message → Bool
  | Message.ai _ akw tcs c => (extractRawToolCalls akw tcs c).all tcIdTruthy
  | _ => true

/-- Whether the tool calls extracted from a message carry truthy, pairwise
distinct ids (vacuously true for non-assistant messages). -/
def msgToolIdsOk : Message → Bool
  | Message.ai _ akw tcs c =>
    (extractRawToolCalls akw tcs c).all tcIdTruthy
      && decide (((extractRawToolCalls akw tcs c).map rawIdOf).Nodup)
  | _ => true

/-- Whether a message is not a tool result referencing the given id. -/
def noToolRef (tid : String) : Message → Bool
  | Message.tool _ (some t) _ => t != tid
  | _ => true

/-- Whether a message is a human message. -/
def isHumanMsg : Message → Bool
  | Message.human _ _ => true
  | _ => false

/-- Index of the first tool call with the given id, mirroring `findIndex`. -/
def firstIdx (tid : String) : List ToolCall → Option Nat
  | [] => none
  | tc :: rest => if tc.id = tid then some 0 else (firstIdx tid rest).map (· + 1)

/-- Position (turn index, tool-call index) of the first tool call with the
given id, scanning turns in insertion order. -/
def firstMatch (tid : String) : List Entry → Option (Nat × Nat)
  | [] => none
  | e :: rest =>
    match firstIdx tid e.toolCalls with
    | some j => some (0, j)
    | none => (firstMatch tid rest).map (fun p => (p.1 + 1, p.2))

/-- The tool call stored at a (turn, tool-call) position of the working map. -/
def tcAt (l : List Entry) (i j : Nat) : ToolCall :=
  ((l.getD i dE).toolCalls).getD j dTC

/-- The per-turn id skeleton of the working map; tool-result folding never
changes it. -/
def idsShape (l : List Entry) : List (List String) :=
  l.map (fun e => e.toolCalls.map ToolCall.id)

/-- Upgrade order on tool calls: same id, name and arguments, and completion
is never lost. -/
def tcLE (a b : ToolCall) : Prop :=
  b.id = a.id ∧ b.name = a.name ∧ b.args = a.args ∧
    (a.status = Status.completed → b.status = Status.completed)

/-- Pointwise upgrade order on tool-call lists. -/
def toolCallsLE (a b : List ToolCall) : Prop :=
  a.length = b.length ∧ ∀ j, j < a.length → tcLE (a.getD j dTC) (b.getD j dTC)

/-- Upgrade order on working maps: the old turns survive at their positions
with the same message and upgraded tool calls. -/
def entriesLE (a b : List Entry) : Prop :=
  a.length ≤ b.length ∧
    ∀ i, i < a.length →
      (b.getD i dE).message = (a.getD i dE).message ∧
        toolCallsLE (a.getD i dE).toolCalls (b.getD i dE).toolCalls

/-- Concrete raw tool call with id `t1`. -/
def exTc1 : RawToolCall :=
  { id := some "t1", function := none, name := some "search", type := none,
    args := some (Arg.obj [("q", "x")]), input := none }

/-- Concrete raw tool call with no id at all. -/
def exTcNoId : RawToolCall :=
  { id := none, function := none, name := some "search", type := none,
    args := none, input := none }

/-- Concrete assistant message carrying `exTc1` in the flat shape. -/
def exAi : Message := Message.ai "a1" none (some [exTc1]) (Content.text "")

/-- Concrete assistant message whose only tool call lacks an id. -/
def exAiNoId : Message :=
  Message.ai "a2" (some { tool_calls := some [exTcNoId] }) none (Content.text "")

/-- Concrete assistant message carrying the same tool-call id twice. -/
def exAiDup : Message :=
  Message.ai "a3" (some { tool_calls := some [exTc1, exTc1] }) none (Content.text "")

/-- Concrete human messages. -/
def exHuman : Message := Message.human "h1" (Content.text "hi")

/-- Second concrete human message. -/
def exHuman2 : Message := Message.human "h2" (Content.text "again")

/-- Concrete tool result matching `t1`. -/
def exTool1 : Message := Message.tool "r1" (some "t1") "result-x"

/-- Second concrete tool result matching `t1`. -/
def exTool2 : Message := Message.tool "r2" (some "t1") "result-y"

/-- A concrete random-id oracle. -/
def exRndA : Nat → String := fun _ => "a"

/-- Another concrete random-id oracle. -/
def exRndB : Nat → String := fun _ => "b"

/-- Concrete raw tool call with every field absent. -/
def exTcEmpty : RawToolCall :=
  { id := none, function := none, name := none, type := none,
    args := none, input := none }

theorem withAvatars_length (p : Option Message) (l : List Entry) :
    (withAvatars p l).length = l.length := by
  induction l generalizing p with
  | nil => rfl
  | cons e rest ih => simp [withAvatars, ih]

theorem withAvatars_getD_message (p : Option Message) (l : List Entry) (i : Nat)
    (h : i < l.length) :
    ((withAvatars p l).getD i dRT).message = (l.getD i dE).message := by
  induction l generalizing p i with
  | nil => simp at h
  | cons e rest ih =>
    cases i with
    | zero => rfl
    | succ n =>
      have hn : n < rest.length := by
        simpa [Nat.succ_lt_succ_iff] using h
      simpa [withAvatars, List.getD_cons_succ] using ih (some e.message) n hn

theorem withAvatars_getD_toolCalls (p : Option Message) (l : List Entry) (i : Nat)
    (h : i < l.length) :
    ((withAvatars p l).getD i dRT).toolCalls = (l.getD i dE).toolCalls := by
  induction l generalizing p i with
  | nil => simp at h
  | cons e rest ih =>
    cases i with
    | zero => rfl
    | succ n =>
      have hn : n < rest.length := by
        simpa [Nat.succ_lt_succ_iff] using h
      simpa [withAvatars, List.getD_cons_succ] using ih (some e.message) n hn

theorem withAvatars_map_message (p : Option Message) (l : List Entry) :
    (withAvatars p l).map RenderTurn.message = l.map Entry.message := by
  induction l generalizing p with
  | nil => rfl
  | cons e rest ih => simp [withAvatars, ih]

theorem withAvatars_getD_showAvatar_zero (l : List Entry) (h : 0 < l.length) :
    ((withAvatars none l).getD 0 dRT).showAvatar = true := by
  cases l with
  | nil => simp at h
  | cons e rest => simp [withAvatars]

theorem withAvatars_getD_showAvatar_succ (p : Option Message) (l : List Entry) (i : Nat)
    (h : i + 1 < l.length) :
    ((withAvatars p l).getD (i + 1) dRT).showAvatar
      = decide ((l.getD (i + 1) dE).message.jsType ≠ (l.getD i dE).message.jsType) := by
  induction l generalizing p i with
  | nil => simp at h
  | cons e rest ih =>
    cases i with
    | zero =>
      cases rest with
      | nil => simp at h
      | cons e' rest' =>
        simp only [withAvatars, List.getD_cons_succ, List.getD_cons_zero]
        apply decide_eq_decide.mpr
        constructor
        · intro hne heq
          exact hne (by simp [heq])
        · intro hne heq
          exact hne (by simpa using heq.symm)
    | succ n =>
      have hn : n + 1 < rest.length := by
        simpa [Nat.succ_lt_succ_iff] using h
      simpa [withAvatars, List.getD_cons_succ] using ih (some e.message) n hn

theorem mapSet_length_ge (e : Entry) (l : List Entry) :
    l.length ≤ (mapSet e l).length := by
  induction l with
  | nil => simp [mapSet]
  | cons e' rest ih =>
    simp only [mapSet]
    split
    · simp
    · simpa using Nat.succ_le_succ ih

theorem mapSet_getD_of_ne (e : Entry) (l : List Entry) (i : Nat)
    (hil : i < l.length)
    (hfresh : ∀ k, k ≤ i → (l.getD k dE).message.msgId ≠ e.message.msgId) :
    (mapSet e l).getD i dE = l.getD i dE := by
  induction l generalizing i with
  | nil => simp at hil
  | cons e' rest ih =>
    simp only [mapSet]
    split
    · exact absurd (by assumption) (hfresh 0 (Nat.zero_le i))
    · cases i with
      | zero => rfl
      | succ n =>
        have hn : n < rest.length := by
          simpa [Nat.succ_lt_succ_iff] using hil
        simpa [List.getD_cons_succ] using
          ih n hn (fun k hk => hfresh (k + 1) (Nat.succ_le_succ hk))

theorem mapSet_eq_append (e : Entry) (l : List Entry)
    (h : e.message.msgId ∉ keysOf l) : mapSet e l = l ++ [e] := by
  induction l with
  | nil => rfl
  | cons e' rest ih =>
    have h1 : e'.message.msgId ≠ e.message.msgId := by
      intro heq
      exact h (by simp [keysOf, heq.symm])
    have h2 : e.message.msgId ∉ keysOf rest := by
      intro hm
      exact h (by simp [keysOf] at hm ⊢; exact Or.inr hm)
    simp [mapSet, h1, ih h2]

theorem mapSet_mem {e' e : Entry} {l : List Entry} (h : e' ∈ mapSet e l) :
    e' = e ∨ e' ∈ l := by
  induction l with
  | nil => simpa [mapSet] using h
  | cons x rest ih =>
    simp only [mapSet] at h
    split at h
    · rcases List.mem_cons.mp h with h1 | h1
      · exact Or.inl h1
      · exact Or.inr (List.mem_cons_of_mem _ h1)
    · rcases List.mem_cons.mp h with h1 | h1
      · exact Or.inr (h1 ▸ List.mem_cons_self _ _)
      · rcases ih h1 with h2 | h2
        · exact Or.inl h2
        · exact Or.inr (List.mem_cons_of_mem _ h2)

theorem keysOf_getD_mem (l : List Entry) (i : Nat) (h : i < l.length) :
    (l.getD i dE).message.msgId ∈ keysOf l := by
  induction l generalizing i with
  | nil => simp at h
  | cons e rest ih =>
    cases i with
    | zero => simp [keysOf]
    | succ n =>
      have hn : n < rest.length := by
        simpa [Nat.succ_lt_succ_iff] using h
      have := ih n hn
      simp [keysOf] at this ⊢
      exact Or.inr this

theorem mapSet_keys_subset {x : String} (e : Entry) (l : List Entry)
    (h : x ∈ keysOf (mapSet e l)) : x = e.message.msgId ∨ x ∈ keysOf l := by
  simp only [keysOf, List.mem_map] at h
  rcases h with ⟨e', he', hx⟩
  rcases mapSet_mem he' with h1 | h1
  · exact Or.inl (by rw [← hx, h1])
  · exact Or.inr (by simp [keysOf, List.mem_map]; exact ⟨e', h1, hx⟩)

theorem markCompleted_id (res : String) (tc : ToolCall) :
    (markCompleted res tc).id = tc.id := rfl

theorem updateToolCalls_length (tid res : String) (l : List ToolCall) :
    (updateToolCalls tid res l).length = l.length := by
  induction l with
  | nil => rfl
  | cons tc rest ih =>
    simp only [updateToolCalls]
    split <;> simp [ih]

theorem updateToolCalls_getD (tid res : String) (l : List ToolCall) (j : Nat) :
    (updateToolCalls tid res l).getD j dTC = l.getD j dTC ∨
      ((l.getD j dTC).id = tid ∧
        (updateToolCalls tid res l).getD j dTC = markCompleted res (l.getD j dTC)) := by
  induction l generalizing j with
  | nil => exact Or.inl rfl
  | cons tc rest ih =>
    simp only [updateToolCalls]
    split
    · cases j with
      | zero => exact Or.inr ⟨by assumption, rfl⟩
      | succ n => exact Or.inl (by simp [List.getD_cons_succ])
    · cases j with
      | zero => exact Or.inl rfl
      | succ n => simpa [List.getD_cons_succ] using ih n

theorem updateToolCalls_map_id (tid res : String) (l : List ToolCall) :
    (updateToolCalls tid res l).map ToolCall.id = l.map ToolCall.id := by
  induction l with
  | nil => rfl
  | cons tc rest ih =>
    simp only [updateToolCalls]
    split <;> simp [markCompleted_id, ih]

theorem updateToolCalls_mem {tc' : ToolCall} (tid res : String) (l : List ToolCall)
    (h : tc' ∈ updateToolCalls tid res l) :
    tc' ∈ l ∨ ∃ tc ∈ l, tc' = markCompleted res tc := by
  induction l with
  | nil => simp [updateToolCalls] at h
  | cons tc rest ih =>
    simp only [updateToolCalls] at h
    split at h
    · rcases List.mem_cons.mp h with h1 | h1
      · exact Or.inr ⟨tc, List.mem_cons_self _ _, h1⟩
      · exact Or.inl (List.mem_cons_of_mem _ h1)
    · rcases List.mem_cons.mp h with h1 | h1
      · exact Or.inl (h1 ▸ List.mem_cons_self _ _)
      · rcases ih h1 with h2 | ⟨tc0, htc0, h2⟩
        · exact Or.inl (List.mem_cons_of_mem _ h2)
        · exact Or.inr ⟨tc0, List.mem_cons_of_mem _ htc0, h2⟩

theorem firstIdx_eq_none_iff (tid : String) (l : List ToolCall) :
    firstIdx tid l = none ↔ l.any (fun tc => tc.id == tid) = false := by
  induction l with
  | nil => simp [firstIdx]
  | cons tc rest ih =>
    by_cases h : tc.id = tid
    · simp [firstIdx, h]
    · simp [firstIdx, h, Option.map_eq_none', ih]

theorem updateToolCalls_eq_of_none (tid res : String) (l : List ToolCall)
    (h : firstIdx tid l = none) : updateToolCalls tid res l = l := by
  induction l with
  | nil => rfl
  | cons tc rest ih =>
    by_cases htc : tc.id = tid
    · simp [firstIdx, htc] at h
    · simp only [firstIdx, htc, if_false] at h
      rw [Option.map_eq_none'] at h
      simp [updateToolCalls, htc, ih h]

theorem firstIdx_some_bounds (tid : String) (l : List ToolCall) (j : Nat)
    (h : firstIdx tid l = some j) : j < l.length ∧ (l.getD j dTC).id = tid := by
  induction l generalizing j with
  | nil => simp [firstIdx] at h
  | cons tc rest ih =>
    by_cases htc : tc.id = tid
    · simp only [firstIdx, htc, if_true] at h
      cases h
      exact ⟨Nat.succ_pos _, htc⟩
    · simp only [firstIdx, htc, if_false, Option.map_eq_some'] at h
      rcases h with ⟨j', hj', rfl⟩
      rcases ih j' hj' with ⟨h1, h2⟩
      exact ⟨Nat.succ_lt_succ h1, by simpa [List.getD_cons_succ] using h2⟩

theorem updateToolCalls_getD_at (tid res : String) (l : List ToolCall) (j : Nat)
    (h : firstIdx tid l = some j) :
    (updateToolCalls tid res l).getD j dTC = markCompleted res (l.getD j dTC) := by
  induction l generalizing j with
  | nil => simp [firstIdx] at h
  | cons tc rest ih =>
    by_cases htc : tc.id = tid
    · simp only [firstIdx, htc, if_true] at h
      cases h
      simp [updateToolCalls, htc]
    · simp only [firstIdx, htc, if_false, Option.map_eq_some'] at h
      rcases h with ⟨j', hj', rfl⟩
      simpa [updateToolCalls, htc, List.getD_cons_succ] using ih j' hj'

theorem updateToolCalls_getD_ne (tid res : String) (l : List ToolCall) (j j' : Nat)
    (h : firstIdx tid l = some j) (hne : j' ≠ j) :
    (updateToolCalls tid res l).getD j' dTC = l.getD j' dTC := by
  induction l generalizing j j' with
  | nil => simp [firstIdx] at h
  | cons tc rest ih =>
    by_cases htc : tc.id = tid
    · simp only [firstIdx, htc, if_true] at h
      cases h
      cases j' with
      | zero => exact absurd rfl hne
      | succ n => simp [updateToolCalls, htc, List.getD_cons_succ]
    · simp only [firstIdx, htc, if_false, Option.map_eq_some'] at h
      rcases h with ⟨j0, hj0, rfl⟩
      cases j' with
      | zero => simp [updateToolCalls, htc]
      | succ n =>
        have : n ≠ j0 := fun hn => hne (by rw [hn])
        simpa [updateToolCalls, htc, List.getD_cons_succ] using ih j0 n hj0 this

theorem hasToolCall_false_iff (tid : String) (e : Entry) :
    hasToolCall tid e = false ↔ firstIdx tid e.toolCalls = none := by
  unfold hasToolCall
  exact (firstIdx_eq_none_iff _ _).symm

theorem hasToolCall_true_of_firstIdx (tid : String) (e : Entry) (j : Nat)
    (h : firstIdx tid e.toolCalls = some j) : hasToolCall tid e = true := by
  cases hb : hasToolCall tid e with
  | false => rw [hasToolCall_false_iff] at hb; rw [hb] at h; cases h
  | true => rfl

theorem updateEntries_length (tid res : String) (l : List Entry) :
    (updateEntries tid res l).length = l.length := by
  induction l with
  | nil => rfl
  | cons e rest ih =>
    simp only [updateEntries]
    split <;> simp [ih]

theorem updateEntries_getD (tid res : String) (l : List Entry) (i : Nat) :
    (updateEntries tid res l).getD i dE = l.getD i dE ∨
      (updateEntries tid res l).getD i dE
        = { l.getD i dE with toolCalls := updateToolCalls tid res (l.getD i dE).toolCalls } := by
  induction l generalizing i with
  | nil => exact Or.inl rfl
  | cons e rest ih =>
    simp only [updateEntries]
    split
    · cases i with
      | zero => exact Or.inr rfl
      | succ n => exact Or.inl (by simp [List.getD_cons_succ])
    · cases i with
      | zero => exact Or.inl rfl
      | succ n => simpa [List.getD_cons_succ] using ih n

theorem updateEntries_getD_message (tid res : String) (l : List Entry) (i : Nat) :
    ((updateEntries tid res l).getD i dE).message = (l.getD i dE).message := by
  rcases updateEntries_getD tid res l i with h | h <;> rw [h]

theorem updateEntries_mem {e' : Entry} (tid res : String) (l : List Entry)
    (h : e' ∈ updateEntries tid res l) :
    e' ∈ l ∨ ∃ e ∈ l, e' = { e with toolCalls := updateToolCalls tid res e.toolCalls } := by
  induction l with
  | nil => simp [updateEntries] at h
  | cons e rest ih =>
    simp only [updateEntries] at h
    split at h
    · rcases List.mem_cons.mp h with h1 | h1
      · exact Or.inr ⟨e, List.mem_cons_self _ _, h1⟩
      · exact Or.inl (List.mem_cons_of_mem _ h1)
    · rcases List.mem_cons.mp h with h1 | h1
      · exact Or.inl (h1 ▸ List.mem_cons_self _ _)
      · rcases ih h1 with h2 | ⟨e0, he0, h2⟩
        · exact Or.inl (List.mem_cons_of_mem _ h2)
        · exact Or.inr ⟨e0, List.mem_cons_of_mem _ he0, h2⟩

theorem updateEntries_keysOf (tid res : String) (l : List Entry) :
    keysOf (updateEntries tid res l) = keysOf l := by
  induction l with
  | nil => rfl
  | cons e rest ih =>
    simp only [updateEntries]
    split <;> simp [keysOf] at ih ⊢ <;> exact ih

theorem updateEntries_idsShape (tid res : String) (l : List Entry) :
    idsShape (updateEntries tid res l) = idsShape l := by
  induction l with
  | nil => rfl
  | cons e rest ih =>
    simp only [updateEntries]
    split
    · simp [idsShape, updateToolCalls_map_id]
    · simp [idsShape] at ih ⊢
      exact ih

theorem updateEntries_eq_of_no_match (tid res : String) (l : List Entry)
    (h : ∀ e ∈ l, hasToolCall tid e = false) : updateEntries tid res l = l := by
  induction l with
  | nil => rfl
  | cons e rest ih =>
    have he : hasToolCall tid e = false := h e (List.mem_cons_self _ _)
    simp only [updateEntries, he]
    simp [ih (fun e' he' => h e' (List.mem_cons_of_mem _ he'))]

theorem firstMatch_some_spec (tid : String) (l : List Entry) (i j : Nat)
    (h : firstMatch tid l = some (i, j)) :
    i < l.length ∧ firstIdx tid (l.getD i dE).toolCalls = some j := by
  induction l generalizing i j with
  | nil => simp [firstMatch] at h
  | cons e rest ih =>
    simp only [firstMatch] at h
    cases hfi : firstIdx tid e.toolCalls with
    | some j0 =>
      rw [hfi] at h
      simp only [Option.some.injEq, Prod.mk.injEq] at h
      rcases h with ⟨hi, hj⟩
      subst hi; subst hj
      exact ⟨Nat.succ_pos _, hfi⟩
    | none =>
      rw [hfi] at h
      rw [Option.map_eq_some'] at h
      rcases h with ⟨p, hp, hpe⟩
      have hp1 : p.1 + 1 = i := congrArg Prod.fst hpe
      have hp2 : p.2 = j := congrArg Prod.snd hpe
      rcases ih p.1 p.2 (by rw [← Prod.mk.eta (p := p)] at hp; exact hp) with ⟨h1, h2⟩
      subst hp1; subst hp2
      exact ⟨Nat.succ_lt_succ h1, by simpa [List.getD_cons_succ] using h2⟩

theorem firstMatch_append (tid : String) (l l' : List Entry) (p : Nat × Nat)
    (h : firstMatch tid l = some p) : firstMatch tid (l ++ l') = some p := by
  induction l generalizing p with
  | nil => simp [firstMatch] at h
  | cons e rest ih =>
    simp only [firstMatch, List.cons_append] at h ⊢
    cases hfi : firstIdx tid e.toolCalls with
    | some j0 =>
      rw [hfi] at h
      simp only [Option.some.injEq] at h
      subst h
      simp
    | none =>
      rw [hfi] at h
      simp only [Option.map_eq_some'] at h
      rcases h with ⟨q, hq, hqe⟩
      simp only [Option.map_eq_some']
      exact ⟨q, ih q hq, hqe⟩

theorem firstIdx_congr (tid : String) {l l' : List ToolCall}
    (h : l.map ToolCall.id = l'.map ToolCall.id) : firstIdx tid l = firstIdx tid l' := by
  induction l generalizing l' with
  | nil =>
    cases l' with
    | nil => rfl
    | cons tc' rest' => simp at h
  | cons tc rest ih =>
    cases l' with
    | nil => simp at h
    | cons tc' rest' =>
      simp only [List.map_cons, List.cons.injEq] at h
      rcases h with ⟨h1, h2⟩
      simp [firstIdx, h1, ih h2]

theorem firstMatch_congr (tid : String) {l l' : List Entry}
    (h : idsShape l = idsShape l') : firstMatch tid l = firstMatch tid l' := by
  induction l generalizing l' with
  | nil =>
    cases l' with
    | nil => rfl
    | cons e' rest' => simp [idsShape] at h
  | cons e rest ih =>
    cases l' with
    | nil => simp [idsShape] at h
    | cons e' rest' =>
      simp only [idsShape, List.map_cons, List.cons.injEq] at h
      rcases h with ⟨h1, h2⟩
      simp only [firstMatch, firstIdx_congr tid h1]
      rw [ih (by simpa [idsShape] using h2)]

theorem firstMatch_updateEntries (tid tid' res : String) (l : List Entry) :
    firstMatch tid (updateEntries tid' res l) = firstMatch tid l :=
  firstMatch_congr tid (updateEntries_idsShape tid' res l)

theorem updateEntries_getD_at (tid res : String) (l : List Entry) (i j : Nat)
    (h : firstMatch tid l = some (i, j)) :
    ((updateEntries tid res l).getD i dE).toolCalls
      = updateToolCalls tid res ((l.getD i dE).toolCalls) := by
  induction l generalizing i j with
  | nil => simp [firstMatch] at h
  | cons e rest ih =>
    simp only [firstMatch] at h
    cases hfi : firstIdx tid e.toolCalls with
    | some j0 =>
      rw [hfi] at h
      simp only [Option.some.injEq, Prod.mk.injEq] at h
      rcases h with ⟨hi, _⟩
      subst hi
      simp [updateEntries, hasToolCall_true_of_firstIdx tid e j0 hfi]
    | none =>
      rw [hfi] at h
      rw [Option.map_eq_some'] at h
      rcases h with ⟨p, hp, hpe⟩
      have hfalse : hasToolCall tid e = false := (hasToolCall_false_iff tid e).mpr hfi
      have hp1 : p.1 + 1 = i := congrArg Prod.fst hpe
      have hp2 : p.2 = j := congrArg Prod.snd hpe
      subst hp1
      simpa [updateEntries, hfalse, List.getD_cons_succ] using
        ih p.1 p.2 (by rw [← Prod.mk.eta (p := p)] at hp; exact hp)

theorem updateEntries_getD_ne (tid res : String) (l : List Entry) (i j i' : Nat)
    (h : firstMatch tid l = some (i, j)) (hne : i' ≠ i) :
    (updateEntries tid res l).getD i' dE = l.getD i' dE := by
  induction l generalizing i j i' with
  | nil => simp [firstMatch] at h
  | cons e rest ih =>
    simp only [firstMatch] at h
    cases hfi : firstIdx tid e.toolCalls with
    | some j0 =>
      rw [hfi] at h
      simp only [Option.some.injEq, Prod.mk.injEq] at h
      rcases h with ⟨hi, _⟩
      subst hi
      cases i' with
      | zero => exact absurd rfl hne
      | succ n =>
        simp [updateEntries, hasToolCall_true_of_firstIdx tid e j0 hfi,
          List.getD_cons_succ]
    | none =>
      rw [hfi] at h
      rw [Option.map_eq_some'] at h
      rcases h with ⟨p, hp, hpe⟩
      have hfalse : hasToolCall tid e = false := (hasToolCall_false_iff tid e).mpr hfi
      have hp1 : p.1 + 1 = i := congrArg Prod.fst hpe
      subst hp1
      cases i' with
      | zero => simp [updateEntries, hfalse]
      | succ n =>
        have hn : n ≠ p.1 := fun hn0 => hne (by rw [hn0])
        simpa [updateEntries, hfalse, List.getD_cons_succ] using
          ih p.1 p.2 n (by rw [← Prod.mk.eta (p := p)] at hp; exact hp) hn

theorem tcLE_refl (a : ToolCall) : tcLE a a := ⟨rfl, rfl, rfl, fun h => h⟩

theorem tcLE_trans {a b c : ToolCall} (h1 : tcLE a b) (h2 : tcLE b c) : tcLE a c :=
  ⟨h2.1.trans h1.1, h2.2.1.trans h1.2.1, h2.2.2.1.trans h1.2.2.1,
    fun h => h2.2.2.2 (h1.2.2.2 h)⟩

theorem toolCallsLE_refl (l : List ToolCall) : toolCallsLE l l :=
  ⟨rfl, fun _ _ => tcLE_refl _⟩

theorem toolCallsLE_trans {a b c : List ToolCall} (h1 : toolCallsLE a b)
    (h2 : toolCallsLE b c) : toolCallsLE a c :=
  ⟨h1.1.trans h2.1, fun j hj => tcLE_trans (h1.2 j hj) (h2.2 j (h1.1 ▸ hj))⟩

theorem entriesLE_refl (l : List Entry) : entriesLE l l :=
  ⟨Nat.le_refl _, fun _ _ => ⟨rfl, toolCallsLE_refl _⟩⟩

theorem entriesLE_trans {a b c : List Entry} (h1 : entriesLE a b) (h2 : entriesLE b c) :
    entriesLE a c := by
  refine ⟨h1.1.trans h2.1, fun i hi => ?_⟩
  have hib : i < b.length := Nat.lt_of_lt_of_le hi h1.1
  rcases h1.2 i hi with ⟨hm1, ht1⟩
  rcases h2.2 i hib with ⟨hm2, ht2⟩
  exact ⟨hm2.trans hm1, toolCallsLE_trans ht1 ht2⟩

theorem updateToolCalls_le (tid res : String) (l : List ToolCall) :
    toolCallsLE l (updateToolCalls tid res l) := by
  refine ⟨(updateToolCalls_length tid res l).symm, fun j hj => ?_⟩
  rcases updateToolCalls_getD tid res l j with h | ⟨_, h⟩
  · rw [h]; exact tcLE_refl _
  · rw [h]; exact ⟨rfl, rfl, rfl, fun _ => rfl⟩

theorem updateEntries_le (tid res : String) (l : List Entry) :
    entriesLE l (updateEntries tid res l) := by
  refine ⟨Nat.le_of_eq (updateEntries_length tid res l).symm, fun i hi => ?_⟩
  refine ⟨updateEntries_getD_message tid res l i, ?_⟩
  rcases updateEntries_getD tid res l i with h | h
  · rw [h]; exact toolCallsLE_refl _
  · rw [h]; exact updateToolCalls_le tid res _

theorem entriesLE_mapSet {a t : List Entry} (e : Entry) (hle : entriesLE a t)
    (hfresh : ∀ i, i < a.length → (a.getD i dE).message.msgId ≠ e.message.msgId) :
    entriesLE a (mapSet e t) := by
  rcases hle with ⟨hlen, hpt⟩
  refine ⟨Nat.le_trans hlen (mapSet_length_ge e t), fun i hi => ?_⟩
  have hit : i < t.length := Nat.lt_of_lt_of_le hi hlen
  have heq : (mapSet e t).getD i dE = t.getD i dE := by
    apply mapSet_getD_of_ne e t i hit
    intro k hk
    have hk' : k < a.length := Nat.lt_of_le_of_lt hk hi
    rw [(hpt k hk').1]
    exact hfresh k hk'
  rw [heq]
  exact hpt i hi

theorem entriesLE_step (rnd : Nat → String) (a : List Entry) (t : List Entry × Nat)
    (m : Message) (hle : entriesLE a t.1) (hfresh : idFreshIn (keysOf a) m = true) :
    entriesLE a ((step rnd t m).1) := by
  rcases t with ⟨entries, k⟩
  cases m with
  | ai i akw tcs c =>
    have hni : i ∉ keysOf a := by
      simpa [idFreshIn] using hfresh
    apply entriesLE_mapSet _ hle
    intro idx hidx heq
    apply hni
    have hm := keysOf_getD_mem a idx hidx
    rw [heq] at hm
    simpa [Message.msgId] using hm
  | human i c =>
    have hni : i ∉ keysOf a := by
      simpa [idFreshIn] using hfresh
    apply entriesLE_mapSet _ hle
    intro idx hidx heq
    apply hni
    have hm := keysOf_getD_mem a idx hidx
    rw [heq] at hm
    simpa [Message.msgId] using hm
  | tool i tid c =>
    cases tid with
    | none => exact hle
    | some t0 =>
      by_cases ht : t0 = ""
      · simpa [step, ht] using hle
      · simpa [step, ht] using entriesLE_trans hle (updateEntries_le t0 _ entries)
  | other => exact hle

theorem entriesLE_fold (rnd : Nat → String) (a : List Entry) (N : List Message) :
    ∀ t : List Entry × Nat, entriesLE a t.1 →
      (∀ m ∈ N, idFreshIn (keysOf a) m = true) →
      entriesLE a ((N.foldl (step rnd) t).1) := by
  induction N with
  | nil => exact fun t h _ => h
  | cons m rest ih =>
    intro t h hf
    rw [List.foldl_cons]
    exact ih _ (entriesLE_step rnd a t m h (hf m (List.mem_cons_self _ _)))
      (fun m' hm' => hf m' (List.mem_cons_of_mem _ hm'))

theorem fold_keys_subset (rnd : Nat → String) (M : List Message) :
    ∀ (t : List Entry × Nat) (x : String), x ∈ keysOf ((M.foldl (step rnd) t).1) →
      x ∈ keysOf t.1 ∨ x ∈ aiHumanIds M := by
  induction M with
  | nil => exact fun _ _ h => Or.inl h
  | cons m rest ih =>
    intro t x h
    rw [List.foldl_cons] at h
    rcases ih _ x h with h1 | h1
    · rcases t with ⟨entries, k⟩
      cases m with
      | ai i akw tcs c =>
        rcases mapSet_keys_subset _ _ h1 with h2 | h2
        · exact Or.inr (by simp [aiHumanIds, h2, Message.msgId])
        · exact Or.inl h2
      | human i c =>
        rcases mapSet_keys_subset _ _ h1 with h2 | h2
        · exact Or.inr (by simp [aiHumanIds, h2, Message.msgId])
        · exact Or.inl h2
      | tool i tid c =>
        cases tid with
        | none => exact Or.inl h1
        | some t0 =>
          by_cases ht : t0 = ""
          · simp only [step, ht, if_true] at h1
            exact Or.inl h1
          · simp only [step, ht, if_false] at h1
            rw [updateEntries_keysOf] at h1
            exact Or.inl h1
      | other => exact Or.inl h1
    · right
      cases m with
      | ai i akw tcs c => exact List.mem_cons_of_mem _ h1
      | human i c => exact List.mem_cons_of_mem _ h1
      | tool i tid c => exact h1
      | other => exact h1

theorem jsOrStr_ne_empty (o : Option String) (d : String) (hd : d ≠ "") :
    jsOrStr o d ≠ "" := by
  cases o with
  | none => exact hd
  | some s =>
    by_cases hs : s = ""
    · simpa [jsOrStr, hs] using hd
    · simpa [jsOrStr, hs] using hs

theorem jsOrArg_truthy (o : Option Arg) (d : Arg) (hd : d.truthy = true) :
    (jsOrArg o d).truthy = true := by
  cases o with
  | none => exact hd
  | some a =>
    by_cases ha : a.truthy = true
    · simpa [jsOrArg, ha] using ha
    · simp only [jsOrArg]
      rw [if_neg ha]
      exact hd

theorem normalizeOne_name_ne_empty (rnd : Nat → String) (k : Nat) (tc : RawToolCall) :
    ((normalizeOne rnd k tc).1).name ≠ "" := by
  have h : jsOrStr (tc.function.bind RawFunction.name)
      (jsOrStr tc.name (jsOrStr tc.type "unknown")) ≠ "" :=
    jsOrStr_ne_empty _ _ (jsOrStr_ne_empty _ _ (jsOrStr_ne_empty _ _ (by decide)))
  unfold normalizeOne
  cases tc.id with
  | none => exact h
  | some s =>
    by_cases hs : s = ""
    · simpa [hs] using h
    · simpa [hs] using h

theorem normalizeOne_args_truthy (rnd : Nat → String) (k : Nat) (tc : RawToolCall) :
    ((normalizeOne rnd k tc).1).args.truthy = true := by
  have h : (jsOrArg (tc.function.bind RawFunction.arguments)
      (jsOrArg tc.args (jsOrArg tc.input (Arg.obj [])))).truthy = true :=
    jsOrArg_truthy _ _ (jsOrArg_truthy _ _ (jsOrArg_truthy _ _ rfl))
  unfold normalizeOne
  cases tc.id with
  | none => exact h
  | some s =>
    by_cases hs : s = ""
    · simpa [hs] using h
    · simpa [hs] using h

theorem normalizeOne_id_of_truthy (rnd : Nat → String) (k : Nat) (tc : RawToolCall)
    (h : tcIdTruthy tc = true) :
    (normalizeOne rnd k tc).1.id = rawIdOf tc ∧ (normalizeOne rnd k tc).2 = k := by
  unfold tcIdTruthy at h
  unfold normalizeOne rawIdOf
  cases htc : tc.id with
  | none => rw [htc] at h; simp at h
  | some s =>
    rw [htc] at h
    have hs : s ≠ "" := by simpa using h
    simp [hs]

theorem normalizeList_map_id_of_truthy (rnd : Nat → String) (l : List RawToolCall)
    (h : ∀ tc ∈ l, tcIdTruthy tc = true) :
    ∀ k, (normalizeList rnd k l).1.map ToolCall.id = l.map rawIdOf := by
  induction l with
  | nil => intro k; rfl
  | cons tc rest ih =>
    intro k
    have htc := normalizeOne_id_of_truthy rnd k tc (h tc (List.mem_cons_self _ _))
    simp only [normalizeList, List.map_cons]
    rw [htc.1, ih (fun tc' h' => h tc' (List.mem_cons_of_mem _ h'))]

theorem normalizeOne_rnd_irrel (r1 r2 : Nat → String) (k : Nat) (tc : RawToolCall)
    (h : tcIdTruthy tc = true) : normalizeOne r1 k tc = normalizeOne r2 k tc := by
  unfold tcIdTruthy at h
  unfold normalizeOne
  cases htc : tc.id with
  | none => rw [htc] at h; simp at h
  | some s =>
    rw [htc] at h
    have hs : s ≠ "" := by simpa using h
    simp [hs]

theorem normalizeList_rnd_irrel (r1 r2 : Nat → String) (l : List RawToolCall)
    (h : ∀ tc ∈ l, tcIdTruthy tc = true) :
    ∀ k, normalizeList r1 k l = normalizeList r2 k l := by
  induction l with
  | nil => intro k; rfl
  | cons tc rest ih =>
    intro k
    simp only [normalizeList]
    rw [normalizeOne_rnd_irrel r1 r2 k tc (h tc (List.mem_cons_self _ _)),
      ih (fun tc' h' => h tc' (List.mem_cons_of_mem _ h'))]

theorem normalizeList_mem {tc : ToolCall} (rnd : Nat → String) (l : List RawToolCall)
    (k : Nat) (h : tc ∈ (normalizeList rnd k l).1) :
    ∃ raw ∈ l, ∃ k', tc = (normalizeOne rnd k' raw).1 := by
  induction l generalizing k with
  | nil => simp [normalizeList] at h
  | cons r rest ih =>
    simp only [normalizeList] at h
    rcases List.mem_cons.mp h with h1 | h1
    · exact ⟨r, List.mem_cons_self _ _, k, h1⟩
    · rcases ih _ h1 with ⟨raw, hraw, k', he⟩
      exact ⟨raw, List.mem_cons_of_mem _ hraw, k', he⟩

theorem fold_inv (Q : List ToolCall → Prop)
    (hupd : ∀ tid res l, Q l → Q (updateToolCalls tid res l))
    (hnil : Q []) (rnd : Nat → String) (M : List Message) :
    ∀ s : List Entry × Nat,
      (∀ i akw tcs c, Message.ai i akw tcs c ∈ M →
        ∀ k, Q (normalizeList rnd k (extractRawToolCalls akw tcs c)).1) →
      (∀ e ∈ s.1, Q e.toolCalls) →
      ∀ e ∈ (M.foldl (step rnd) s).1, Q e.toolCalls := by
  induction M with
  | nil => exact fun s _ hs => hs
  | cons m rest ih =>
    intro s hai hs
    rw [List.foldl_cons]
    apply ih _ (fun i akw tcs c hm => hai i akw tcs c (List.mem_cons_of_mem _ hm))
    intro e he
    rcases s with ⟨entries, k⟩
    cases m with
    | ai i akw tcs c =>
      rcases mapSet_mem he with h1 | h1
      · rw [h1]
        exact hai i akw tcs c (List.mem_cons_self _ _) k
      · exact hs e h1
    | human i c =>
      rcases mapSet_mem he with h1 | h1
      · rw [h1]; exact hnil
      · exact hs e h1
    | tool i tid c =>
      cases tid with
      | none => exact hs e he
      | some t0 =>
        by_cases ht : t0 = ""
        · simp only [step, ht, if_true] at he
          exact hs e he
        · simp only [step, ht, if_false] at he
          rcases updateEntries_mem _ _ _ he with h1 | ⟨e0, he0, h1⟩
          · exact hs e h1
          · rw [h1]
            exact hupd _ _ _ (hs e0 he0)
    | other => exact hs e he

theorem step_rnd_irrel (r1 r2 : Nat → String) (s : List Entry × Nat) (m : Message)
    (h : msgIdsPresent m = true) : step r1 s m = step r2 s m := by
  rcases s with ⟨entries, k⟩
  cases m with
  | ai i akw tcs c =>
    have hall : ∀ tc ∈ extractRawToolCalls akw tcs c, tcIdTruthy tc = true := by
      simpa [msgIdsPresent, List.all_eq_true] using h
    simp only [step]
    rw [normalizeList_rnd_irrel r1 r2 _ hall k]
  | human i c => rfl
  | tool i tid c => rfl
  | other => rfl

theorem fold_rnd_irrel (r1 r2 : Nat → String) (M : List Message)
    (h : ∀ m ∈ M, msgIdsPresent m = true) :
    ∀ s, M.foldl (step r1) s = M.foldl (step r2) s := by
  induction M with
  | nil => intro s; rfl
  | cons m rest ih =>
    intro s
    rw [List.foldl_cons, List.foldl_cons,
      step_rnd_irrel r1 r2 s m (h m (List.mem_cons_self _ _))]
    exact ih (fun m' hm' => h m' (List.mem_cons_of_mem _ hm')) _

theorem mem_aiHumanIds_of_mem {m : Message} {M : List Message} (hm : m ∈ M)
    (hh : isHumanMsg m = true) : m.msgId ∈ aiHumanIds M := by
  induction M with
  | nil => simp at hm
  | cons m0 rest ih =>
    rcases List.mem_cons.mp hm with h1 | h1
    · subst h1
      cases m with
      | human i c => simp [aiHumanIds, Message.msgId]
      | ai i akw tcs c => simp [isHumanMsg] at hh
      | tool i tid c => simp [isHumanMsg] at hh
      | other => simp [isHumanMsg] at hh
    · cases m0 with
      | ai i akw tcs c => exact List.mem_cons_of_mem _ (ih h1)
      | human i c => exact List.mem_cons_of_mem _ (ih h1)
      | tool i tid c => exact ih h1
      | other => exact ih h1

theorem keysOf_append (a b : List Entry) : keysOf (a ++ b) = keysOf a ++ keysOf b := by
  simp [keysOf]

theorem fold_humans (rnd : Nat → String) (M : List Message) :
    ∀ s : List Entry × Nat,
      (∀ m ∈ M, isHumanMsg m = true) →
      (∀ m ∈ M, Message.msgId m ∉ keysOf s.1) →
      (aiHumanIds M).Nodup →
      ((M.foldl (step rnd) s).1)
        = s.1 ++ M.map (fun m => { message := m, toolCalls := [] }) := by
  induction M with
  | nil => intro s _ _ _; simp
  | cons m rest ih =>
    intro s hh hk hnd
    cases m with
    | ai i akw tcs c => exact absurd (hh _ (List.mem_cons_self _ _)) (by simp [isHumanMsg])
    | tool i tid c => exact absurd (hh _ (List.mem_cons_self _ _)) (by simp [isHumanMsg])
    | other => exact absurd (hh _ (List.mem_cons_self _ _)) (by simp [isHumanMsg])
    | human i c =>
      rcases s with ⟨entries, k⟩
      rw [List.foldl_cons]
      have hfresh : Message.msgId (Message.human i c) ∉ keysOf entries :=
        hk _ (List.mem_cons_self _ _)
      have hstep : (step rnd (entries, k) (Message.human i c))
          = (entries ++ [{ message := Message.human i c, toolCalls := [] }], k) := by
        simp only [step]
        rw [mapSet_eq_append _ _ hfresh]
      rw [hstep]
      have hpair := List.nodup_cons.mp (by simpa [aiHumanIds] using hnd)
      have hnd' : (aiHumanIds rest).Nodup := hpair.2
      have hni : i ∉ aiHumanIds rest := hpair.1
      have hk' : ∀ m' ∈ rest, Message.msgId m'
          ∉ keysOf (entries ++ [{ message := Message.human i c, toolCalls := [] }]) := by
        intro m' hm'
        rw [keysOf_append]
        intro hmem
        rcases List.mem_append.mp hmem with h1 | h1
        · exact hk m' (List.mem_cons_of_mem _ hm') h1
        · have hm'h : isHumanMsg m' = true := hh m' (List.mem_cons_of_mem _ hm')
          have : Message.msgId m' = i := by
            simpa [keysOf, Message.msgId] using h1
          exact hni (this ▸ mem_aiHumanIds_of_mem hm' hm'h)
      rw [ih _ (fun m' hm' => hh m' (List.mem_cons_of_mem _ hm')) hk' hnd']
      simp

theorem tcAt_append (l : List Entry) (e : Entry) (i j : Nat) (h : i < l.length) :
    tcAt (l ++ [e]) i j = tcAt l i j := by
  unfold tcAt
  rw [List.getD_append _ _ _ _ h]

theorem tcAt_updateEntries_ne (tid tid2 res : String) (l : List Entry) (i j : Nat)
    (hid : (tcAt l i j).id = tid) (hne : tid2 ≠ tid) :
    tcAt (updateEntries tid2 res l) i j = tcAt l i j := by
  unfold tcAt at hid ⊢
  rcases updateEntries_getD tid2 res l i with h | h
  · rw [h]
  · rw [h]
    rcases updateToolCalls_getD tid2 res (l.getD i dE).toolCalls j with h2 | ⟨h2a, h2b⟩
    · simpa using h2
    · exact absurd (hid.symm.trans h2a).symm hne

theorem fold_keeps_match (rnd : Nat → String) (tid : String) (i j : Nat) (v : ToolCall)
    (hv : v.id = tid) (N : List Message) :
    ∀ (t : List Entry × Nat) (pref : List String),
      (∀ x ∈ keysOf t.1, x ∈ pref) →
      (pref ++ aiHumanIds N).Nodup →
      (∀ m ∈ N, noToolRef tid m = true) →
      firstMatch tid t.1 = some (i, j) →
      tcAt t.1 i j = v →
      firstMatch tid ((N.foldl (step rnd) t).1) = some (i, j) ∧
        tcAt ((N.foldl (step rnd) t).1) i j = v ∧
        ∀ x ∈ keysOf ((N.foldl (step rnd) t).1), x ∈ pref ++ aiHumanIds N := by
  induction N with
  | nil =>
    intro t pref hkeys _ _ hfm htc
    exact ⟨hfm, htc, fun x hx => by simpa [aiHumanIds] using hkeys x hx⟩
  | cons m rest ih =>
    intro t pref hkeys hnd href hfm htc
    rcases t with ⟨entries, k⟩
    rw [List.foldl_cons]
    cases m with
    | ai i2 akw tcs c =>
      have hbound := (firstMatch_some_spec tid entries i j hfm).1
      have hnd2 : ((pref ++ [i2]) ++ aiHumanIds rest).Nodup := by
        rw [List.append_assoc]
        simpa [aiHumanIds] using hnd
      have hi2 : i2 ∉ pref := by
        rcases List.nodup_append.mp (by simpa [aiHumanIds] using hnd) with ⟨_, _, hdisj⟩
        exact fun hip => hdisj hip (List.mem_cons_self _ _)
      have hfreshkey : Message.msgId (Message.ai i2 akw tcs c) ∉ keysOf entries :=
        fun hmem => hi2 (hkeys _ hmem)
      have hstep1 : (step rnd (entries, k) (Message.ai i2 akw tcs c)).1
          = entries ++ [Entry.mk (Message.ai i2 akw tcs c)
              (normalizeList rnd k (extractRawToolCalls akw tcs c)).1] := by
        simp only [step]
        rw [mapSet_eq_append _ _ hfreshkey]
      obtain ⟨r1, r2, r3⟩ := ih (step rnd (entries, k) (Message.ai i2 akw tcs c))
        (pref ++ [i2])
        (by
          rw [hstep1, keysOf_append]
          intro x hx
          rcases List.mem_append.mp hx with h1 | h1
          · exact List.mem_append.mpr (Or.inl (hkeys x h1))
          · have hx2 : x = i2 := by simpa [keysOf, Message.msgId] using h1
            exact List.mem_append.mpr (Or.inr (by simp [hx2])))
        hnd2
        (fun m' hm' => href m' (List.mem_cons_of_mem _ hm'))
        (by rw [hstep1]; exact firstMatch_append tid entries _ _ hfm)
        (by rw [hstep1, tcAt_append _ _ _ _ hbound]; exact htc)
      refine ⟨r1, r2, fun x hx => ?_⟩
      have hx3 := r3 x hx
      simp only [aiHumanIds, List.mem_append, List.mem_cons, List.mem_singleton] at hx3 ⊢
      tauto
    | human i2 c =>
      have hbound := (firstMatch_some_spec tid entries i j hfm).1
      have hnd2 : ((pref ++ [i2]) ++ aiHumanIds rest).Nodup := by
        rw [List.append_assoc]
        simpa [aiHumanIds] using hnd
      have hi2 : i2 ∉ pref := by
        rcases List.nodup_append.mp (by simpa [aiHumanIds] using hnd) with ⟨_, _, hdisj⟩
        exact fun hip => hdisj hip (List.mem_cons_self _ _)
      have hfreshkey : Message.msgId (Message.human i2 c) ∉ keysOf entries :=
        fun hmem => hi2 (hkeys _ hmem)
      have hstep1 : (step rnd (entries, k) (Message.human i2 c)).1
          = entries ++ [{ message := Message.human i2 c, toolCalls := [] }] := by
        simp only [step]
        rw [mapSet_eq_append _ _ hfreshkey]
      obtain ⟨r1, r2, r3⟩ := ih (step rnd (entries, k) (Message.human i2 c))
        (pref ++ [i2])
        (by
          rw [hstep1, keysOf_append]
          intro x hx
          rcases List.mem_append.mp hx with h1 | h1
          · exact List.mem_append.mpr (Or.inl (hkeys x h1))
          · have hx2 : x = i2 := by simpa [keysOf, Message.msgId] using h1
            exact List.mem_append.mpr (Or.inr (by simp [hx2])))
        hnd2
        (fun m' hm' => href m' (List.mem_cons_of_mem _ hm'))
        (by rw [hstep1]; exact firstMatch_append tid entries _ _ hfm)
        (by rw [hstep1, tcAt_append _ _ _ _ hbound]; exact htc)
      refine ⟨r1, r2, fun x hx => ?_⟩
      have hx3 := r3 x hx
      simp only [aiHumanIds, List.mem_append, List.mem_cons, List.mem_singleton] at hx3 ⊢
      tauto
    | tool i2 tid2 c =>
      have hrr : noToolRef tid (Message.tool i2 tid2 c) = true :=
        href _ (List.mem_cons_self _ _)
      cases tid2 with
      | none =>
        obtain ⟨r1, r2, r3⟩ := ih (entries, k) pref hkeys
          (by simpa [aiHumanIds] using hnd)
          (fun m' hm' => href m' (List.mem_cons_of_mem _ hm')) hfm htc
        exact ⟨r1, r2, fun x hx => by
          have := r3 x hx
          simpa [aiHumanIds] using this⟩
      | some t0 =>
        have ht0 : t0 ≠ tid := by simpa [noToolRef] using hrr
        by_cases hte : t0 = ""
        · have hstep0 : step rnd (entries, k) (Message.tool i2 (some t0) c)
              = (entries, k) := by simp [step, hte]
          rw [hstep0]
          obtain ⟨r1, r2, r3⟩ := ih (entries, k) pref hkeys
            (by simpa [aiHumanIds] using hnd)
            (fun m' hm' => href m' (List.mem_cons_of_mem _ hm')) hfm htc
          exact ⟨r1, r2, fun x hx => by
            have := r3 x hx
            simpa [aiHumanIds] using this⟩
        · have hstep0 : step rnd (entries, k) (Message.tool i2 (some t0) c)
              = (updateEntries t0 (extractStringFromMessageContent c) entries, k) := by
            simp [step, hte]
          rw [hstep0]
          have hid : (tcAt entries i j).id = tid := by rw [htc]; exact hv
          obtain ⟨r1, r2, r3⟩ :=
            ih (updateEntries t0 (extractStringFromMessageContent c) entries, k) pref
            (by
              intro x hx
              apply hkeys
              rwa [updateEntries_keysOf] at hx)
            (by simpa [aiHumanIds] using hnd)
            (fun m' hm' => href m' (List.mem_cons_of_mem _ hm'))
            (by rw [firstMatch_updateEntries]; exact hfm)
            (by rw [tcAt_updateEntries_ne tid t0 _ entries i j hid ht0]; exact htc)
          exact ⟨r1, r2, fun x hx => by
            have := r3 x hx
            simpa [aiHumanIds] using this⟩
    | other =>
      obtain ⟨r1, r2, r3⟩ := ih (entries, k) pref hkeys
        (by simpa [aiHumanIds] using hnd)
        (fun m' hm' => href m' (List.mem_cons_of_mem _ hm')) hfm htc
      exact ⟨r1, r2, fun x hx => by
        have := r3 x hx
        simpa [aiHumanIds] using this⟩

theorem withAvatars_mem {t : RenderTurn} (p : Option Message) (l : List Entry)
    (h : t ∈ withAvatars p l) : ∃ e ∈ l, t.toolCalls = e.toolCalls := by
  induction l generalizing p with
  | nil => simp [withAvatars] at h
  | cons e rest ih =>
    simp only [withAvatars] at h
    rcases List.mem_cons.mp h with h1 | h1
    · exact ⟨e, List.mem_cons_self _ _, by rw [h1]⟩
    · rcases ih (some e.message) h1 with ⟨e0, he0, ht⟩
      exact ⟨e0, List.mem_cons_of_mem _ he0, ht⟩

theorem idFreshIn_mono {ids ids' : List String} (m : Message)
    (hsub : ∀ x ∈ ids, x ∈ ids') (h : idFreshIn ids' m = true) :
    idFreshIn ids m = true := by
  cases m with
  | ai i akw tcs c =>
    simp only [idFreshIn, Bool.not_eq_true', decide_eq_false_iff_not] at h ⊢
    exact fun hx => h (hsub _ hx)
  | human i c =>
    simp only [idFreshIn, Bool.not_eq_true', decide_eq_false_iff_not] at h ⊢
    exact fun hx => h (hsub _ hx)
  | tool i tid c => rfl
  | other => rfl

theorem fold_keys_subset0 (rnd : Nat → String) (M : List Message) :
    ∀ x ∈ keysOf ((M.foldl (step rnd) ([], 0)).1), x ∈ aiHumanIds M := by
  intro x hx
  rcases fold_keys_subset rnd M ([], 0) x hx with h | h
  · simp [keysOf] at h
  · exact h

theorem aiHumanIds_append (A B : List Message) :
    aiHumanIds (A ++ B) = aiHumanIds A ++ aiHumanIds B := by
  induction A with
  | nil => rfl
  | cons m rest ih =>
    cases m with
    | ai i akw tcs c => simp [aiHumanIds, ih]
    | human i c => simp [aiHumanIds, ih]
    | tool i tid c => simp [aiHumanIds, ih]
    | other => simp [aiHumanIds, ih]

theorem jsOrStr_falsy (o : Option String) (d : String)
    (h : o = none ∨ o = some "") : jsOrStr o d = d := by
  rcases h with h | h <;> simp [jsOrStr, h]

theorem normalizeOne_name_eq (rnd : Nat → String) (k : Nat) (tc : RawToolCall) :
    ((normalizeOne rnd k tc).1).name
      = jsOrStr (tc.function.bind RawFunction.name)
          (jsOrStr tc.name (jsOrStr tc.type "unknown")) := by
  unfold normalizeOne
  cases tc.id with
  | none => rfl
  | some s =>
    by_cases hs : s = "" <;> simp [hs]

theorem normalizeOne_args_eq (rnd : Nat → String) (k : Nat) (tc : RawToolCall) :
    ((normalizeOne rnd k tc).1).args
      = jsOrArg (tc.function.bind RawFunction.arguments)
          (jsOrArg tc.args (jsOrArg tc.input (Arg.obj []))) := by
  unfold normalizeOne
  cases tc.id with
  | none => rfl
  | some s =>
    by_cases hs : s = "" <;> simp [hs]

/-- C9: a tool-result message whose `tool_call_id` is absent is skipped
entirely: the output equals the output for the sequence with that message
removed, so it yields no turn, changes no status, and raises no error. -/
theorem c9_absent_ref_skipped (rnd : Nat → String) (M1 M2 : List Message)
    (mid payload : String) :
    reconcile rnd (M1 ++ Message.tool mid none payload :: M2)
      = reconcile rnd (M1 ++ M2) := by
  unfold reconcile
  rw [List.foldl_append, List.foldl_append, List.foldl_cons]
  have h : step rnd (M1.foldl (step rnd) ([], 0)) (Message.tool mid none payload)
      = M1.foldl (step rnd) ([], 0) := by
    rcases M1.foldl (step rnd) ([], 0) with ⟨entries, k⟩
    rfl
  rw [h]

/-- C4: a tool-result message whose reference id matches no tool call of any
earlier assistant message is dropped silently: the output equals the output
for the sequence with that message removed. -/
theorem c4_orphan_drop (rnd : Nat → String) (M1 M2 : List Message)
    (mid ref payload : String)
    (h : ∀ e ∈ (M1.foldl (step rnd) ([], 0)).1, hasToolCall ref e = false) :
    reconcile rnd (M1 ++ Message.tool mid (some ref) payload :: M2)
      = reconcile rnd (M1 ++ M2) := by
  unfold reconcile
  rw [List.foldl_append, List.foldl_append, List.foldl_cons]
  have hstep : step rnd (M1.foldl (step rnd) ([], 0)) (Message.tool mid (some ref) payload)
      = M1.foldl (step rnd) ([], 0) := by
    rcases hsplit : M1.foldl (step rnd) ([], 0) with ⟨entries, k⟩
    by_cases hr : ref = ""
    · simp [step, hr]
    · simp only [step, hr, if_false]
      rw [updateEntries_eq_of_no_match]
      intro e he
      apply h
      rw [hsplit]
      exact he
  rw [hstep]

/-- C4 witness: a concrete orphan tool result is dropped. -/
theorem c4_witness :
    reconcile exRndA ([exAi] ++ Message.tool "x1" (some "zz") "ignored" :: [exHuman2])
      = reconcile exRndA ([exAi] ++ [exHuman2]) :=
  c4_orphan_drop exRndA [exAi] [exHuman2] "x1" "zz" "ignored" (by decide)

/-- C2: the three tool-call encodings are tried in strict priority order —
the nested `additional_kwargs.tool_calls` shape wins whenever it is an array
(even over a simultaneously present flat shape), else the flat `tool_calls`
shape filtered to drop empty-name entries, else the `tool_use` content
blocks, else nothing; only the winning shape's list is used, never a merge,
and the winning list alone feeds the turn's normalized tool calls. -/
theorem c2_shape_priority :
    (∀ l1 tcs c, extractRawToolCalls (some { tool_calls := some l1 }) tcs c = l1) ∧
    (∀ akw l2 c, akw.bind AdditionalKwargs.tool_calls = none →
      extractRawToolCalls akw (some l2) c
        = l2.filter (fun tc => tc.name != some "")) ∧
    (∀ akw bs, akw.bind AdditionalKwargs.tool_calls = none →
      extractRawToolCalls akw none (Content.blocks bs)
        = bs.filter (fun b => b.type == some "tool_use")) ∧
    (∀ akw s, akw.bind AdditionalKwargs.tool_calls = none →
      extractRawToolCalls akw none (Content.text s) = []) ∧
    (∀ rnd i l1 tcs c,
      (reconcile rnd [Message.ai i (some { tool_calls := some l1 }) tcs c]).map
        RenderTurn.toolCalls = [(normalizeList rnd 0 l1).1]) := by
  refine ⟨fun l1 tcs c => rfl, fun akw l2 c h => ?_, fun akw bs h => ?_,
    fun akw s h => ?_, fun rnd i l1 tcs c => ?_⟩
  · simp [extractRawToolCalls, h]
  · simp [extractRawToolCalls, h]
  · simp [extractRawToolCalls, h]
  · rfl

/-- C2 witness: the priority order on concrete messages. -/
theorem c2_witness :
    extractRawToolCalls (some { tool_calls := some [exTc1] }) (some [exTcNoId])
        (Content.text "") = [exTc1] ∧
    extractRawToolCalls (some { tool_calls := none }) (some [exTc1])
        (Content.text "") = [exTc1].filter (fun tc => tc.name != some "") ∧
    extractRawToolCalls none none (Content.blocks [exTc1])
      = [exTc1].filter (fun b => b.type == some "tool_use") ∧
    extractRawToolCalls (some { tool_calls := none }) none (Content.text "hi") = [] ∧
    (reconcile exRndA [Message.ai "a9" (some { tool_calls := some [exTc1] }) none
        (Content.text "")]).map RenderTurn.toolCalls
      = [(normalizeList exRndA 0 [exTc1]).1] :=
  ⟨c2_shape_priority.1 [exTc1] (some [exTcNoId]) (Content.text ""),
   c2_shape_priority.2.1 (some { tool_calls := none }) [exTc1] (Content.text "") rfl,
   c2_shape_priority.2.2.1 none [exTc1] rfl,
   c2_shape_priority.2.2.2.1 (some { tool_calls := none }) "hi" rfl,
   c2_shape_priority.2.2.2.2 exRndA "a9" [exTc1] none (Content.text "")⟩

/-- C1: counterexample — the claim fails as stated, because a tool call with
a missing id receives a fresh `Math.random` synthetic id, so two calls of the
reconciler (modelled by two random-id oracles) on the same input need not be
structurally identical. -/
theorem c1_counterexample :
    reconcile exRndA [exAiNoId] ≠ reconcile exRndB [exAiNoId] := by decide

/-- C1 (amended): the reconciler is deterministic — its output does not
depend on the random-id source — for every input whose extracted tool calls
all carry a present, non-empty id (no synthetic id is ever drawn). -/
theorem c1_deterministic (r1 r2 : Nat → String) (M : List Message)
    (h : ∀ m ∈ M, msgIdsPresent m = true) : reconcile r1 M = reconcile r2 M := by
  unfold reconcile
  rw [fold_rnd_irrel r1 r2 M h]

/-- C1 witness: two different oracles agree on a concrete id-carrying input. -/
theorem c1_witness :
    reconcile exRndA [exHuman, exAi, exTool1]
      = reconcile exRndB [exHuman, exAi, exTool1] :=
  c1_deterministic exRndA exRndB [exHuman, exAi, exTool1] (by decide)

/-- C5: counterexample — the reconciler performs no deduplication inside a
turn, so an assistant message listing the same tool-call id twice yields a
turn whose tool calls share an id. -/
theorem c5_counterexample :
    ¬ ∀ t ∈ reconcile exRndA [exAiDup], (t.toolCalls.map ToolCall.id).Nodup := by
  decide

/-- C5 (amended): no two tool calls within the same output turn share an id,
provided the tool calls extracted from each assistant message carry present,
non-empty, pairwise distinct ids (ids are taken as given; the code never
deduplicates, so duplicates in a message survive into its turn). -/
theorem c5_no_dup_ids (rnd : Nat → String) (M : List Message)
    (h : ∀ m ∈ M, msgToolIdsOk m = true) :
    ∀ t ∈ reconcile rnd M, (t.toolCalls.map ToolCall.id).Nodup := by
  intro t ht
  unfold reconcile at ht
  rcases withAvatars_mem none _ ht with ⟨e, he, htc⟩
  rw [htc]
  refine fold_inv (fun l => (l.map ToolCall.id).Nodup)
    (fun tid res l hq => by
      show ((updateToolCalls tid res l).map ToolCall.id).Nodup
      rwa [updateToolCalls_map_id])
    (by simp) rnd M ([], 0) ?_ (by simp) e he
  intro i akw tcs c hm k
  have hok := h _ hm
  simp only [msgToolIdsOk, Bool.and_eq_true, List.all_eq_true,
    decide_eq_true_eq] at hok
  rw [normalizeList_map_id_of_truthy rnd _ hok.1]
  exact hok.2

/-- C5 witness: a concrete turn with distinct given ids. -/
theorem c5_witness :
    (((reconcile exRndA [exHuman, exAi]).getD 1 dRT).toolCalls.map ToolCall.id).Nodup :=
  c5_no_dup_ids exRndA [exHuman, exAi] (by decide) _ (by decide)

/-- C6: the name fallback chain bottoms out at `"unknown"` and the argument
fallback chain at the empty mapping, and every normalized tool call of every
output turn has a defined non-empty name and a defined (truthy) argument
payload — normalization never raises. -/
theorem c6_fallbacks :
    (∀ rnd k tc,
      (tc.function.bind RawFunction.name = none
        ∨ tc.function.bind RawFunction.name = some "") →
      (tc.name = none ∨ tc.name = some "") →
      (tc.type = none ∨ tc.type = some "") →
      ((normalizeOne rnd k tc).1).name = "unknown") ∧
    (∀ rnd k tc,
      tc.function.bind RawFunction.arguments = none →
      tc.args = none → tc.input = none →
      ((normalizeOne rnd k tc).1).args = Arg.obj []) ∧
    (∀ rnd M, ∀ t ∈ reconcile rnd M, ∀ tc ∈ t.toolCalls,
      tc.name ≠ "" ∧ tc.args.truthy = true) := by
  refine ⟨?_, ?_, ?_⟩
  · intro rnd k tc h1 h2 h3
    rw [normalizeOne_name_eq, jsOrStr_falsy _ _ h1, jsOrStr_falsy _ _ h2,
      jsOrStr_falsy _ _ h3]
  · intro rnd k tc h1 h2 h3
    rw [normalizeOne_args_eq, h1, h2, h3]
    rfl
  · intro rnd M t ht tc htc
    unfold reconcile at ht
    rcases withAvatars_mem none _ ht with ⟨e, he, htcs⟩
    rw [htcs] at htc
    refine fold_inv (fun l => ∀ tc' ∈ l, tc'.name ≠ "" ∧ tc'.args.truthy = true)
      ?_ (by simp) rnd M ([], 0) ?_ (by simp) e he tc htc
    · intro tid res l hq tc' htc'
      rcases updateToolCalls_mem tid res l htc' with h1 | ⟨tc0, htc0, h1⟩
      · exact hq tc' h1
      · rw [h1]
        exact hq tc0 htc0
    · intro i akw tcs c hm k tc' htc'
      rcases normalizeList_mem rnd _ k htc' with ⟨raw, hraw, k', he'⟩
      rw [he']
      exact ⟨normalizeOne_name_ne_empty rnd k' raw, normalizeOne_args_truthy rnd k' raw⟩

/-- C6 witness: a fully absent raw tool call normalizes to the defaults, and
a concrete output tool call has a non-empty name and truthy arguments. -/
theorem c6_witness :
    ((normalizeOne exRndA 0 exTcEmpty).1).name = "unknown" ∧
    ((normalizeOne exRndA 0 exTcEmpty).1).args = Arg.obj [] ∧
    (((reconcile exRndA [exAi]).getD 0 dRT).toolCalls.getD 0 dTC).name ≠ "" :=
  ⟨c6_fallbacks.1 exRndA 0 exTcEmpty (Or.inl rfl) (Or.inl rfl) (Or.inl rfl),
   c6_fallbacks.2.1 exRndA 0 exTcEmpty rfl rfl rfl,
   (c6_fallbacks.2.2 exRndA [exAi] ((reconcile exRndA [exAi]).getD 0 dRT)
     (by decide) (((reconcile exRndA [exAi]).getD 0 dRT).toolCalls.getD 0 dTC)
     (by decide)).1⟩

/-- C7: the first emitted turn carries a true avatar hint, and every later
turn's hint is true exactly when its message type differs from the previous
emitted turn's message type. -/
theorem c7_avatar_hints (rnd : Nat → String) (M : List Message) :
    (0 < (reconcile rnd M).length →
      ((reconcile rnd M).getD 0 dRT).showAvatar = true) ∧
    (∀ i, i + 1 < (reconcile rnd M).length →
      (((reconcile rnd M).getD (i + 1) dRT).showAvatar = true ↔
        ((reconcile rnd M).getD (i + 1) dRT).message.jsType
          ≠ ((reconcile rnd M).getD i dRT).message.jsType)) := by
  constructor
  · intro h
    unfold reconcile at h ⊢
    rw [withAvatars_length] at h
    exact withAvatars_getD_showAvatar_zero _ h
  · intro i h
    unfold reconcile at h ⊢
    rw [withAvatars_length] at h
    rw [withAvatars_getD_showAvatar_succ none _ i h]
    rw [withAvatars_getD_message none _ (i + 1) h,
      withAvatars_getD_message none _ i (Nat.lt_of_succ_lt h)]
    simp

/-- C7 witness: concrete avatar hints for a human turn followed by an
assistant turn. -/
theorem c7_witness :
    ((reconcile exRndA [exHuman, exAi]).getD 0 dRT).showAvatar = true ∧
    (((reconcile exRndA [exHuman, exAi]).getD 1 dRT).showAvatar = true ↔
      ((reconcile exRndA [exHuman, exAi]).getD 1 dRT).message.jsType
        ≠ ((reconcile exRndA [exHuman, exAi]).getD 0 dRT).message.jsType) :=
  ⟨(c7_avatar_hints exRndA [exHuman, exAi]).1 (by decide),
   (c7_avatar_hints exRndA [exHuman, exAi]).2 0 (by decide)⟩

/-- C8: for an input of human messages only (ids unique within the
sequence), the output has exactly one turn per input message, in order, and
every turn's tool-call list is empty. -/
theorem c8_humans_only (rnd : Nat → String) (M : List Message)
    (hh : ∀ m ∈ M, isHumanMsg m = true) (hnd : (aiHumanIds M).Nodup) :
    (reconcile rnd M).length = M.length ∧
      (reconcile rnd M).map RenderTurn.message = M ∧
      ∀ t ∈ reconcile rnd M, t.toolCalls = [] := by
  have hfold := fold_humans rnd M ([], 0) hh (by simp [keysOf]) hnd
  refine ⟨?_, ?_, ?_⟩
  · unfold reconcile
    rw [withAvatars_length, hfold]
    simp
  · unfold reconcile
    rw [withAvatars_map_message, hfold]
    simp only [List.nil_append, List.map_map]
    show List.map id M = M
    exact List.map_id M
  · intro t ht
    unfold reconcile at ht
    rcases withAvatars_mem none _ ht with ⟨e, he, htc⟩
    rw [hfold] at he
    simp only [List.nil_append, List.mem_map] at he
    rcases he with ⟨m, hm, hme⟩
    rw [htc, ← hme]

/-- C8 witness: two concrete human messages. -/
theorem c8_witness :
    (reconcile exRndA [exHuman, exHuman2]).length = 2 ∧
      (reconcile exRndA [exHuman, exHuman2]).map RenderTurn.message
        = [exHuman, exHuman2] ∧
      ((reconcile exRndA [exHuman, exHuman2]).getD 1 dRT).toolCalls = [] :=
  ⟨(c8_humans_only exRndA [exHuman, exHuman2] (by decide) (by decide)).1,
   (c8_humans_only exRndA [exHuman, exHuman2] (by decide) (by decide)).2.1,
   (c8_humans_only exRndA [exHuman, exHuman2] (by decide) (by decide)).2.2
     _ (by decide)⟩

theorem step_tool_some (rnd : Nat → String) (t : List Entry × Nat)
    (mid tid res : String) (h : tid ≠ "") :
    step rnd t (Message.tool mid (some tid) res)
      = (updateEntries tid res t.1, t.2) := by
  rcases t with ⟨entries, k⟩
  simp [step, h, extractStringFromMessageContent]

/-- C3: once a tool call's status is `completed` in the turn at position
`i`, tool-call position `j`, of the output for `M`, it is still `completed`
at the same positions of the output for `M` with any messages appended,
provided the appended `ai`/`human` messages do not reuse an id of an
`ai`/`human` message of `M` (the spec constrains ids to be unique within one
input). -/
theorem c3_completed_monotone (rnd : Nat → String) (M N : List Message)
    (hfresh : ∀ m ∈ N, idFreshIn (aiHumanIds M) m = true)
    (i j : Nat) (hi : i < (reconcile rnd M).length)
    (hj : j < ((reconcile rnd M).getD i dRT).toolCalls.length)
    (hc : (((reconcile rnd M).getD i dRT).toolCalls.getD j dTC).status
      = Status.completed) :
    i < (reconcile rnd (M ++ N)).length ∧
      j < ((reconcile rnd (M ++ N)).getD i dRT).toolCalls.length ∧
      (((reconcile rnd (M ++ N)).getD i dRT).toolCalls.getD j dTC).status
        = Status.completed := by
  have ha : entriesLE ((M.foldl (step rnd) ([], 0)).1)
      (((M ++ N).foldl (step rnd) ([], 0)).1) := by
    rw [List.foldl_append]
    apply entriesLE_fold rnd _ N _ (entriesLE_refl _)
    intro m hm
    exact idFreshIn_mono m (fold_keys_subset0 rnd M) (hfresh m hm)
  unfold reconcile at hi hj hc ⊢
  rw [withAvatars_length] at hi
  rw [withAvatars_getD_toolCalls none _ i hi] at hj hc
  have hib : i < (((M ++ N).foldl (step rnd) ([], 0)).1).length :=
    Nat.lt_of_lt_of_le hi ha.1
  have htl := (ha.2 i hi).2
  refine ⟨?_, ?_, ?_⟩
  · rw [withAvatars_length]
    exact hib
  · rw [withAvatars_getD_toolCalls none _ i hib, ← htl.1]
    exact hj
  · rw [withAvatars_getD_toolCalls none _ i hib]
    exact (htl.2 j hj).2.2.2 hc

/-- C3 witness: a completed call stays completed after appending a human
message. -/
theorem c3_witness :
    (((reconcile exRndA ([exAi, exTool1] ++ [exHuman2])).getD 0 dRT).toolCalls.getD
        0 dTC).status = Status.completed :=
  (c3_completed_monotone exRndA [exAi, exTool1] [exHuman2] (by decide) 0 0
    (by decide) (by decide) (by decide)).2.2

/-- C10: when two tool-result messages reference the same id `tid` (no other
message referencing `tid` between or after them, ids unique within the
input), both fold into the same tool call — the one at the first-match
position `(i, j)` of the working map when the first result arrives — and the
final output carries that call marked completed with the second (later)
result overwriting the first. -/
theorem c10_duplicate_results (rnd : Nat → String) (tid : String)
    (M1 M2 M3 : List Message) (a b r1 r2 : String) (i j : Nat)
    (htid : tid ≠ "")
    (hnd : (aiHumanIds (M1 ++ Message.tool a (some tid) r1
      :: (M2 ++ Message.tool b (some tid) r2 :: M3))).Nodup)
    (h2 : ∀ m ∈ M2, noToolRef tid m = true)
    (h3 : ∀ m ∈ M3, noToolRef tid m = true)
    (hfm : firstMatch tid ((M1.foldl (step rnd) ([], 0)).1) = some (i, j)) :
    firstMatch tid (((M1 ++ Message.tool a (some tid) r1 :: M2).foldl
        (step rnd) ([], 0)).1) = some (i, j) ∧
    i < (reconcile rnd (M1 ++ Message.tool a (some tid) r1
      :: (M2 ++ Message.tool b (some tid) r2 :: M3))).length ∧
    j < ((reconcile rnd (M1 ++ Message.tool a (some tid) r1
      :: (M2 ++ Message.tool b (some tid) r2 :: M3))).getD i
        dRT).toolCalls.length ∧
    ((reconcile rnd (M1 ++ Message.tool a (some tid) r1
      :: (M2 ++ Message.tool b (some tid) r2 :: M3))).getD i
        dRT).toolCalls.getD j dTC
      = markCompleted r2 (markCompleted r1
          (tcAt ((M1.foldl (step rnd) ([], 0)).1) i j)) := by
  set s1 : List Entry × Nat := M1.foldl (step rnd) ([], 0) with hs1
  set s2 : List Entry × Nat := (updateEntries tid r1 s1.1, s1.2) with hs2
  set s3 : List Entry × Nat := M2.foldl (step rnd) s2 with hs3
  set s4 : List Entry × Nat := (updateEntries tid r2 s3.1, s3.2) with hs4
  set s5 : List Entry × Nat := M3.foldl (step rnd) s4 with hs5
  have hndA : (aiHumanIds M1 ++ (aiHumanIds M2 ++ aiHumanIds M3)).Nodup := by
    have he : aiHumanIds (M1 ++ Message.tool a (some tid) r1
        :: (M2 ++ Message.tool b (some tid) r2 :: M3))
        = aiHumanIds M1 ++ (aiHumanIds M2 ++ aiHumanIds M3) := by
      rw [aiHumanIds_append]
      simp [aiHumanIds, aiHumanIds_append]
    rwa [he] at hnd
  have hnd12 : (aiHumanIds M1 ++ aiHumanIds M2).Nodup := by
    apply List.Nodup.sublist (List.sublist_append_left _ (aiHumanIds M3))
    rwa [List.append_assoc]
  have hnd123 : ((aiHumanIds M1 ++ aiHumanIds M2) ++ aiHumanIds M3).Nodup := by
    rwa [List.append_assoc]
  obtain ⟨hi1, hfi1⟩ := firstMatch_some_spec tid s1.1 i j hfm
  obtain ⟨hj1, hid1⟩ := firstIdx_some_bounds tid _ j hfi1
  have htc2 : tcAt s2.1 i j = markCompleted r1 (tcAt s1.1 i j) := by
    unfold tcAt
    rw [hs2]
    rw [updateEntries_getD_at tid r1 s1.1 i j hfm,
      updateToolCalls_getD_at tid r1 _ j hfi1]
  have hfm2 : firstMatch tid s2.1 = some (i, j) := by
    rw [hs2]
    rw [firstMatch_updateEntries]
    exact hfm
  have hkeys2 : ∀ x ∈ keysOf s2.1, x ∈ aiHumanIds M1 := by
    intro x hx
    rw [hs2] at hx
    rw [updateEntries_keysOf] at hx
    exact fold_keys_subset0 rnd M1 x (by rw [← hs1]; exact hx)
  have hv1 : (markCompleted r1 (tcAt s1.1 i j)).id = tid := by
    rw [markCompleted_id]
    exact hid1
  obtain ⟨hfm3, htc3, hkeys3⟩ := fold_keeps_match rnd tid i j
    (markCompleted r1 (tcAt s1.1 i j)) hv1 M2 s2 (aiHumanIds M1)
    hkeys2 hnd12 h2 hfm2 htc2
  rw [← hs3] at hfm3 htc3 hkeys3
  obtain ⟨hi3, hfi3⟩ := firstMatch_some_spec tid s3.1 i j hfm3
  have htc4 : tcAt s4.1 i j
      = markCompleted r2 (markCompleted r1 (tcAt s1.1 i j)) := by
    unfold tcAt at htc3 ⊢
    rw [hs4]
    rw [updateEntries_getD_at tid r2 s3.1 i j hfm3,
      updateToolCalls_getD_at tid r2 _ j hfi3, htc3]
  have hfm4 : firstMatch tid s4.1 = some (i, j) := by
    rw [hs4]
    rw [firstMatch_updateEntries]
    exact hfm3
  have hkeys4 : ∀ x ∈ keysOf s4.1, x ∈ aiHumanIds M1 ++ aiHumanIds M2 := by
    intro x hx
    rw [hs4] at hx
    rw [updateEntries_keysOf] at hx
    exact hkeys3 x hx
  have hv2 : (markCompleted r2 (markCompleted r1 (tcAt s1.1 i j))).id = tid := by
    rw [markCompleted_id]
    exact hv1
  obtain ⟨hfm5, htc5, _⟩ := fold_keeps_match rnd tid i j
    (markCompleted r2 (markCompleted r1 (tcAt s1.1 i j))) hv2 M3 s4
    (aiHumanIds M1 ++ aiHumanIds M2) hkeys4 hnd123 h3 hfm4 htc4
  rw [← hs5] at hfm5 htc5
  obtain ⟨hi5, hfi5⟩ := firstMatch_some_spec tid s5.1 i j hfm5
  obtain ⟨hj5, _⟩ := firstIdx_some_bounds tid _ j hfi5
  have hfold1 : ((M1 ++ Message.tool a (some tid) r1 :: M2).foldl
      (step rnd) ([], 0)) = s3 := by
    rw [List.foldl_append, List.foldl_cons, ← hs1,
      step_tool_some rnd s1 a tid r1 htid, ← hs2, hs3]
  have hfoldL : ((M1 ++ Message.tool a (some tid) r1
      :: (M2 ++ Message.tool b (some tid) r2 :: M3)).foldl
      (step rnd) ([], 0)) = s5 := by
    rw [List.foldl_append, List.foldl_cons, List.foldl_append, List.foldl_cons,
      ← hs1, step_tool_some rnd s1 a tid r1 htid, ← hs2, ← hs3,
      step_tool_some rnd s3 b tid r2 htid, ← hs4, hs5]
  refine ⟨by rw [hfold1]; exact hfm3, ?_, ?_, ?_⟩
  · unfold reconcile
    rw [hfoldL, withAvatars_length]
    exact hi5
  · unfold reconcile
    rw [hfoldL, withAvatars_getD_toolCalls none _ i hi5]
    exact hj5
  · unfold reconcile
    rw [hfoldL, withAvatars_getD_toolCalls none _ i hi5]
    exact htc5

/-- C10 witness: two concrete results for `t1` with a human message in
between; the later payload wins at the first-match position. -/
theorem c10_witness :
    ((reconcile exRndA ([exAi] ++ Message.tool "x1" (some "t1") "result-x"
      :: ([exHuman] ++ Message.tool "x2" (some "t1") "result-y" :: []))).getD 0
        dRT).toolCalls.getD 0 dTC
      = markCompleted "result-y" (markCompleted "result-x"
          (tcAt (([exAi].foldl (step exRndA) ([], 0)).1) 0 0)) :=
  (c10_duplicate_results exRndA "t1" [exAi] [exHuman] [] "x1" "x2"
    "result-x" "result-y" 0 0 (by decide) (by decide) (by decide) (by decide)
    (by decide)).2.2.2

end DeepAgents
